import Mathlib

/-!
Verification of the autoregressive sequence-generator wrapper
(`src/sw/Autogressive.py`): a shallow embedding of `eval_decorator`,
`top_k`, `AutoregressiveWrapper.generate` and `AutoregressiveWrapper.forward`,
together with theorems settling the specification's claims about them.

Modelling choices:
- token sequences are `List (List ℤ)` (batch of rows);
- scores are exact rationals; a truncated score row is `List (WithBot ℚ)`
  with `⊥` standing for the float `-inf` written by `top_k`;
- `F.softmax` is embedded qualitatively: `exp(-inf) = 0`, so an entry's
  probability is positive iff the entry is finite, and the whole row is NaN
  (undefined normalization, 0/0) iff no entry is finite.  No claim depends on
  the numeric value of a probability, only on zero/positive/NaN;
- `torch.multinomial` draws an index with positive probability; the random
  draw is an oracle argument `choice`, and the call fails (torch raises
  RuntimeError) when the row contains NaN or has empty support;
- the wrapped scorer `net` is an opaque fallible collaborator
  `List (List ℤ) → Except GenError (List (List (List ℚ)))` returning scores
  of shape (batch, positions, vocabulary);
- the training/inference flag of the module is an explicit `Bool` threaded
  through `eval_decorator`, exactly as `model.training` / `model.eval()` /
  `model.train(was_training)` manipulate it.
-/

/-- Errors surfacing from a `generate`/`forward` call.  `scorerFailure` is a
failure raised by the wrapped scorer (spec: CollaboratorFailure);
`invalidDistribution` is the RuntimeError `torch.multinomial` raises on a
NaN / zero-mass probability row; `degenerateDistribution` is the error the
spec's taxonomy demands for a truncation leaving zero candidates — it exists
here so that claims about it are statable; the code never constructs it. -/
inductive GenError where
  | scorerFailure
  | invalidDistribution
  | degenerateDistribution
deriving DecidableEq

/-- Qualitative value of one entry of a softmax output row: exactly zero,
strictly positive, or NaN (the whole row was `-inf`, normalization 0/0). -/
inductive Prob where
  | zero
  | pos
  | nan
deriving DecidableEq

/-- Python `int(...)` applied to an exact rational: truncation toward zero. -/
def int_trunc (q : ℚ) : ℤ := if 0 ≤ q then ⌊q⌋ else ⌈q⌉

/-- Index `j` beats index `i` in the score row `l`: strictly larger score, or
equal score and smaller index.  This is the strict total order by which
`torch.topk` ranks entries (ties resolved deterministically towards the
earlier index). -/
def betterIdx (l : List ℚ) (j i : ℕ) : Prop :=
  l.getD i 0 < l.getD j 0 ∨ (l.getD j 0 = l.getD i 0 ∧ j < i)

instance (l : List ℚ) (j i : ℕ) : Decidable (betterIdx l j i) := by
  unfold betterIdx; exact inferInstance

/-- Number of indices of the row that beat index `i`; the `i`-th entry is one
of the `k` largest selected by `torch.topk` exactly when `rank l i < k`. -/
def rank (l : List ℚ) (i : ℕ) : ℕ :=
  ((Finset.range l.length).filter (fun j => betterIdx l j i)).card

/-- Embedding of `top_k` (source lines 22–27): `k = int((1 - thres) * n)`,
`torch.topk` selects the `k` highest-scoring entries, and `scatter_` writes
their values into a row otherwise filled with `-inf` (`⊥`). -/
def top_k (logits : List ℚ) (thres : ℚ) : List (WithBot ℚ) :=
  let k := (int_trunc ((1 - thres) * (logits.length : ℚ))).toNat
  (List.range logits.length).map
    (fun i => if rank logits i < k then ((logits.getD i 0 : ℚ) : WithBot ℚ) else ⊥)

/-- Division of a truncated score row by the temperature
(`filtered_logits / temperature`): `-inf` stays `-inf`, finite entries are
divided.  Faithful for `temperature > 0`, the spec's precondition. -/
def scaleTemp (l : List (WithBot ℚ)) (temp : ℚ) : List (WithBot ℚ) :=
  l.map (fun x => x.map (fun q => q / temp))

/-- Qualitative embedding of `F.softmax` on an extended-real row:
`exp(⊥) = 0`, so when some entry is finite the normalizer is positive and an
entry's probability is zero iff it is `⊥`; when every entry is `⊥` the
normalizer is `0` and every output entry is NaN (`0/0`). -/
def softmax (l : List (WithBot ℚ)) : List Prob :=
  if l.any (fun x => decide (x ≠ ⊥)) then
    l.map (fun x => if x = ⊥ then Prob.zero else Prob.pos)
  else
    l.map (fun _ => Prob.nan)

/-- Embedding of `torch.multinomial(probs_row, 1)`: fails (RuntimeError) on a
row containing NaN or with no positive entry, otherwise returns an index of
positive probability; which one is drawn is decided by the oracle `choice`. -/
def multinomial (probs : List Prob) (choice : ℕ) : Except GenError ℕ :=
  if probs.any (fun p => decide (p = Prob.nan)) then
    Except.error GenError.invalidDistribution
  else
    let support := (List.range probs.length).filter
      (fun i => decide (probs.getD i Prob.zero = Prob.pos))
    if support.length = 0 then Except.error GenError.invalidDistribution
    else Except.ok (support.getD (choice % support.length) 0)

/-- One `torch.multinomial(probs, 1)` call over the whole batch: row `r` of
`probs` is sampled with the random draw `choice r`; any invalid row fails the
whole call. -/
def sampleRows : List (List Prob) → (ℕ → ℕ) → ℕ → Except GenError (List ℕ)
  | [], _, _ => Except.ok []
  | p :: rest, choice, r =>
    match multinomial p (choice r) with
    | Except.error e => Except.error e
    | Except.ok s =>
      match sampleRows rest choice (r + 1) with
      | Except.error e => Except.error e
      | Except.ok ss => Except.ok (s :: ss)

/-- Embedding of the eos masking (source lines 91–93): position `j` is
overwritten with `pad` exactly when some strictly earlier position of the
original row holds `tok` (shifted eos mask, cumulative sum ≥ 1).  `seen`
carries whether an occurrence was already passed. -/
def maskAfter (tok pad : ℤ) : List ℤ → Bool → List ℤ
  | [], _ => []
  | x :: xs, seen =>
    (if seen then pad else x) :: maskAfter tok pad xs (seen || decide (x = tok))

/-- Embedding of `eval_decorator` (source lines 10–18): record `was_training`,
set the module to inference mode, run the body, and — only on the successful
path, since the Python code has no try/finally — restore the recorded mode.
When the body raises, the mode stays `false` as left by `model.eval()`.  The
pair's second component is the module's training flag after the call. -/
def eval_decorator {α : Type} (fn : Bool → Except GenError α) (training : Bool) :
    Except GenError α × Bool :=
  let was_training := training
  match fn false with
  | Except.ok out => (Except.ok out, was_training)
  | Except.error e => (Except.error e, false)

/-- The wrapped scorer: a fallible map from a token batch to scores of shape
(batch, positions, vocabulary). -/
abbrev Net := List (List ℤ) → Except GenError (List (List (List ℚ)))

/-- Embedding of `AutoregressiveWrapper.__init__` (source lines 40–44): the
wrapper records the scorer, a maximum sequence length and a pad value. -/
structure AutoregressiveWrapper where
  net : Net
  max_seq_len : ℕ
  pad_value : ℤ

/-- The per-step probability rows of the decoding loop (source lines 77–80):
keep only the score row at the last position (`[:, -1, :]`), truncate it with
`top_k`, divide by the temperature and normalize with softmax. -/
def stepProbs (netOut : List (List (List ℚ))) (temperature filter_thres : ℚ) :
    List (List Prob) :=
  ((netOut.map (fun row => row.getLastD [])).map
      (fun row => top_k row filter_thres)).map
    (fun row => softmax (scaleTemp row temperature))

namespace AutoregressiveWrapper

/-- The decoding loop of `generate` (source lines 76–94), with the iteration
bound as fuel.  Each round queries the scorer on the current batch, builds
the per-row sampling distributions with `stepProbs`, samples one token per
row, appends it, and — when an eos token is supplied and every row now
contains it — masks everything after each row's first occurrence and
stops. -/
def generateLoop (net : Net) (pad : ℤ) (eos_token : Option ℤ)
    (temperature filter_thres : ℚ) (choice : ℕ → ℕ → ℕ) :
    ℕ → ℕ → List (List ℤ) → Except GenError (List (List ℤ))
  | 0, _, out => Except.ok out
  | fuel + 1, step, out =>
    match net out with
    | Except.error e => Except.error e
    | Except.ok netOut =>
      match sampleRows (stepProbs netOut temperature filter_thres) (choice step) 0 with
      | Except.error e => Except.error e
      | Except.ok sample =>
        match eos_token with
        | none =>
          generateLoop net pad eos_token temperature filter_thres choice fuel (step + 1)
            (List.zipWith (fun row s => row ++ [Int.ofNat s]) out sample)
        | some tok =>
          if (List.zipWith (fun row s => row ++ [Int.ofNat s]) out sample).all
              (fun row => row.any (fun x => decide (x = tok))) then
            Except.ok ((List.zipWith (fun row s => row ++ [Int.ofNat s]) out sample).map
              (fun row => maskAfter tok pad row false))
          else
            generateLoop net pad eos_token temperature filter_thres choice fuel (step + 1)
              (List.zipWith (fun row s => row ++ [Int.ofNat s]) out sample)

/-- Embedding of `generate` (source lines 46–97): the loop body runs under
`eval_decorator`, and on success the caller's prefix (the first `t` columns,
`t` the initial row length) is stripped from the result.  The second
component of the pair is the module's training flag after the call. -/
def generate (w : AutoregressiveWrapper) (training : Bool)
    (start_tokens : List (List ℤ)) (seq_len : ℕ) (eos_token : Option ℤ)
    (temperature filter_thres : ℚ) (choice : ℕ → ℕ → ℕ) :
    Except GenError (List (List ℤ)) × Bool :=
  eval_decorator
    (fun _ =>
      (generateLoop w.net w.pad_value eos_token temperature filter_thres choice
          seq_len 0 start_tokens).map
        (fun out => out.map (fun row => row.drop (start_tokens.headD []).length)))
    training

end AutoregressiveWrapper

/-- One cell of `F.cross_entropy` on logits: the negative log-softmax of the
score vector at the target class, `log (Σ exp scores) - scores[label]`. -/
noncomputable def crossEntropyCell (scores : List ℚ) (label : ℤ) : ℝ :=
  Real.log ((scores.map (fun q => Real.exp (q : ℝ))).sum)
    - ((scores.getD label.toNat 0 : ℚ) : ℝ)

/-- Embedding of `F.cross_entropy` with mean reduction on an input of shape
(batch, classes, positions) and targets of shape (batch, positions): the mean
of the per-(batch, position) cells, `none` (NaN, a 0/0 mean) when there are
no cells. -/
noncomputable def cross_entropy (input : List (List (List ℚ)))
    (target : List (List ℤ)) : Option ℝ :=
  let cells := ((input.zip target).map (fun bt =>
    (List.range bt.2.length).map (fun p =>
      crossEntropyCell (bt.1.map (fun classRow => classRow.getD p 0)) (bt.2.getD p 0)))).flatten
  if cells.length = 0 then none else some (cells.sum / (cells.length : ℝ))

/-- Embedding of `rearrange(logits, "b c n -> b n c")` applied to one batch
element: the transpose swapping the two trailing axes, so that the class axis
moves in front of the position axis as `F.cross_entropy` expects. -/
def transpose2d (m : List (List ℚ)) : List (List ℚ) :=
  (List.range (m.headD []).length).map (fun i => m.map (fun row => row.getD i 0))

namespace AutoregressiveWrapper

/-- Embedding of `forward` (source lines 99–102): split the batch into input
(all but the last token) and labels (all but the first token), query the
scorer once on the input, and take the mean cross-entropy of the rearranged
scores against the labels.  `Except.ok none` is a silently NaN loss. -/
noncomputable def forward (w : AutoregressiveWrapper) (x : List (List ℤ)) :
    Except GenError (Option ℝ) :=
  let x_inp := x.map (fun row => row.dropLast)
  let x_labels := x.map (fun row => row.drop 1)
  match w.net x_inp with
  | Except.error e => Except.error e
  | Except.ok logits => Except.ok (cross_entropy (logits.map transpose2d) x_labels)

end AutoregressiveWrapper

deriving instance DecidableEq for Except

/-- Predicate behind the spec's masking invariant: in `row`, every position
strictly after an occurrence of the terminator `tok` holds `pad`. -/
def afterEosPadded (tok pad : ℤ) (row : List ℤ) : Prop :=
  ∀ j k, j < k → k < row.length → row.getD j 0 = tok → row.getD k 0 = pad

/-- Score row of length `n` putting score 1 on `tgt` and 0 elsewhere; with a
`k = 1` truncation the sampled token is deterministically `tgt`. -/
def oneHot (n tgt : ℕ) : List ℚ :=
  (List.range n).map (fun i => if i = tgt then 1 else 0)

/-- A scorer that always favours token 5 over a vocabulary of 10. -/
def constNet : Net := fun inp => Except.ok (inp.map (fun _ => [oneHot 10 5]))

/-- A scorer driving the spec's batch-of-2 terminator scenario: the row
starting with 1 emits 5 then the terminator 9, the row starting with 2 emits
6, 7, 8 and only then 9. -/
def scenNet : Net := fun inp => Except.ok (inp.map (fun row =>
  [oneHot 10 (if row.headD 0 = 1 then
                (if row.length = 1 then 5 else if row.length = 2 then 9 else 3)
              else
                (if row.length = 1 then 6 else if row.length = 2 then 7
                 else if row.length = 3 then 8 else 9))]))

/-- A scorer that fails on every query: the CollaboratorFailure case. -/
def failNet : Net := fun _ => Except.error GenError.scorerFailure

/-- A scorer whose score row over a vocabulary of 5 is fixed: with
`filter_thres = 9/10` the truncation cutoff is `k = int(0.5) = 0`. -/
def vocab5Net : Net := fun inp => Except.ok (inp.map (fun _ => [[1, 2, 3, 4, 5]]))

/-- A scorer for the loss wrapper that returns an empty score tensor on any
input, in particular on the empty input produced by a length-1 sequence. -/
def emptyNet : Net := fun inp => Except.ok (inp.map (fun _ => []))

theorem sampleRows_length (choice : ℕ → ℕ) :
    ∀ (probs : List (List Prob)) (r : ℕ) (ys : List ℕ),
      sampleRows probs choice r = Except.ok ys → ys.length = probs.length := by
  intro probs
  induction probs with
  | nil =>
    intro r ys h
    simp only [sampleRows] at h
    cases h
    rfl
  | cons p rest ih =>
    intro r ys h
    simp only [sampleRows] at h
    cases hm : multinomial p (choice r) with
    | error e => rw [hm] at h; cases h
    | ok s =>
      rw [hm] at h
      cases hs : sampleRows rest choice (r + 1) with
      | error e => rw [hs] at h; cases h
      | ok ss =>
        rw [hs] at h
        cases h
        simp [ih (r + 1) ss hs]

theorem maskAfter_length (tok pad : ℤ) :
    ∀ (l : List ℤ) (seen : Bool), (maskAfter tok pad l seen).length = l.length := by
  intro l
  induction l with
  | nil => intro seen; rfl
  | cons x xs ih => intro seen; simp [maskAfter, ih]

theorem maskAfter_getD (tok pad : ℤ) :
    ∀ (l : List ℤ) (seen : Bool) (j : ℕ), j < l.length →
      (maskAfter tok pad l seen).getD j 0 =
        if (seen || (l.take j).any (fun x => decide (x = tok))) then pad
        else l.getD j 0 := by
  intro l
  induction l with
  | nil => intro seen j h; simp at h
  | cons x xs ih =>
    intro seen j h
    cases j with
    | zero => simp [maskAfter]
    | succ j =>
      have hj : j < xs.length := by simpa using h
      simp only [maskAfter, List.getD_cons_succ, List.take_succ_cons, List.any_cons]
      rw [ih (seen || decide (x = tok)) j hj]
      congr 1
      simp [Bool.or_assoc]

theorem any_take_mono {p : ℤ → Bool} (l : List ℤ) (j k : ℕ) (hjk : j ≤ k)
    (h : (l.take j).any p = true) : (l.take k).any p = true := by
  rw [List.any_eq_true] at h ⊢
  obtain ⟨a, ha, hp⟩ := h
  refine ⟨a, ?_, hp⟩
  have : l.take j = (l.take k).take j := by
    rw [List.take_take, min_eq_left hjk]
  rw [this] at ha
  exact List.mem_of_mem_take ha

theorem mem_take_of_getD (l : List ℤ) (j k : ℕ) (hjk : j < k) (hj : j < l.length) :
    l.getD j 0 ∈ l.take k := by
  have hjt : j < (l.take k).length := by
    simp [List.length_take]
    omega
  have : (l.take k).get ⟨j, hjt⟩ = l.getD j 0 := by
    rw [List.getD_eq_getElem l 0 hj]
    simp [List.getElem_take]
  rw [← this]
  exact List.get_mem _ _ _

theorem maskAfter_afterEosPadded (tok pad : ℤ) (l : List ℤ) (seen : Bool) :
    afterEosPadded tok pad (maskAfter tok pad l seen) := by
  intro j k hjk hk htok
  have hlen : (maskAfter tok pad l seen).length = l.length := maskAfter_length tok pad l seen
  have hk' : k < l.length := by rw [hlen] at hk; exact hk
  have hj' : j < l.length := lt_trans hjk hk'
  rw [maskAfter_getD tok pad l seen k hk']
  rw [maskAfter_getD tok pad l seen j hj'] at htok
  have hcondk : (seen || (l.take k).any (fun x => decide (x = tok))) = true := by
    by_cases hcond : (seen || (l.take j).any (fun x => decide (x = tok))) = true
    · rcases Bool.or_eq_true_iff.mp hcond with hs | ha
      · simp [hs]
      · simp [any_take_mono l j k (le_of_lt hjk) ha]
    · rw [if_neg hcond] at htok
      have hany : (l.take k).any (fun x => decide (x = tok)) = true := by
        rw [List.any_eq_true]
        exact ⟨l.getD j 0, mem_take_of_getD l j k hjk hj', decide_eq_true htok⟩
      simp [hany]
  rw [if_pos hcondk]

theorem getD_drop_add (l : List ℤ) (t m : ℕ) (h : m < (l.drop t).length) :
    (l.drop t).getD m 0 = l.getD (t + m) 0 := by
  have h2 : t + m < l.length := by
    simp [List.length_drop] at h
    omega
  rw [List.getD_eq_getElem _ _ h, List.getD_eq_getElem _ _ h2]
  simp [List.getElem_drop]

theorem afterEosPadded_drop (tok pad : ℤ) (row : List ℤ) (t : ℕ)
    (h : afterEosPadded tok pad row) : afterEosPadded tok pad (row.drop t) := by
  intro j k hjk hk htok
  rw [getD_drop_add row t k hk]
  rw [getD_drop_add row t j (lt_trans hjk hk)] at htok
  exact h (t + j) (t + k) (by omega) (by simp [List.length_drop] at hk; omega) htok

theorem stepProbs_length (netOut : List (List (List ℚ))) (temp thres : ℚ) :
    (stepProbs netOut temp thres).length = netOut.length := by
  simp [stepProbs]

theorem zipWith_append_length (out : List (List ℤ)) (sample : List ℕ)
    (hlen : sample.length = out.length) :
    (List.zipWith (fun row s => row ++ [Int.ofNat s]) out sample).length = out.length := by
  simp [List.length_zipWith, hlen]

theorem zipWith_append_getD (out : List (List ℤ)) (sample : List ℕ)
    (hlen : sample.length = out.length) (i : ℕ) (hi : i < out.length) :
    (List.zipWith (fun row s => row ++ [Int.ofNat s]) out sample).getD i [] =
      (out.getD i []) ++ [Int.ofNat (sample.getD i 0)] := by
  have hz : i < (List.zipWith (fun row s => row ++ [Int.ofNat s]) out sample).length := by
    rw [zipWith_append_length out sample hlen]
    exact hi
  rw [List.getD_eq_getElem _ _ hz, List.getD_eq_getElem _ _ hi,
    List.getD_eq_getElem _ _ (by rw [hlen]; exact hi)]
  simp [List.getElem_zipWith]

theorem map_getD_nil {α : Type} (f : List α → List α) (l : List (List α)) (i : ℕ)
    (hi : i < l.length) : (l.map f).getD i [] = f (l.getD i []) := by
  rw [List.getD_eq_getElem _ _ (by simpa using hi), List.getD_eq_getElem _ _ hi]
  exact List.getElem_map f

theorem getD_append_left (l : List ℤ) (a : ℤ) (p : ℕ) (hp : p < l.length) :
    (l ++ [a]).getD p 0 = l.getD p 0 := by
  rw [List.getD_eq_getElem _ _ (by simp; omega), List.getD_eq_getElem _ _ hp]
  exact List.getElem_append_left hp

theorem maskAfter_any (tok pad : ℤ) :
    ∀ l : List ℤ, l.any (fun x => decide (x = tok)) = true →
      (maskAfter tok pad l false).any (fun x => decide (x = tok)) = true := by
  intro l
  induction l with
  | nil => simp
  | cons x xs ih =>
    intro h
    by_cases hx : x = tok
    · simp [maskAfter, hx]
    · have h' : xs.any (fun x => decide (x = tok)) = true := by
        simpa [hx] using h
      simp [maskAfter, hx, ih h']

theorem generateLoop_ok_spec (net : Net) (pad : ℤ) (eos : Option ℤ) (temp thres : ℚ)
    (choice : ℕ → ℕ → ℕ)
    (hnet : ∀ inp o, net inp = Except.ok o → o.length = inp.length) :
    ∀ (fuel step : ℕ) (out res : List (List ℤ)),
      AutoregressiveWrapper.generateLoop net pad eos temp thres choice fuel step out
        = Except.ok res →
      ∃ s, s ≤ fuel ∧ res.length = out.length ∧
        (∀ i, i < out.length → (res.getD i []).length = (out.getD i []).length + s) ∧
        (∀ i p, i < out.length → p < (out.getD i []).length →
          (res.getD i []).getD p 0 = (out.getD i []).getD p 0 ∨
          (res.getD i []).getD p 0 = pad) ∧
        (eos = none → s = fuel) ∧
        (∀ tok, eos = some tok → s = fuel ∨
          (res.all (fun row => row.any (fun x => decide (x = tok))) = true ∧
           ∀ row ∈ res, afterEosPadded tok pad row)) := by
  intro fuel
  induction fuel with
  | zero =>
    intro step out res h
    simp only [AutoregressiveWrapper.generateLoop] at h
    cases h
    exact ⟨0, le_refl 0, rfl, fun i _ => by simp, fun i p _ _ => Or.inl rfl,
      fun _ => rfl, fun tok _ => Or.inl rfl⟩
  | succ fuel ih =>
    intro step out res h
    simp only [AutoregressiveWrapper.generateLoop] at h
    split at h
    · simp at h
    · rename_i netOut hno
      split at h
      · simp at h
      · rename_i sample hs
        have hslen : sample.length = out.length := by
          have h1 := sampleRows_length (choice step) (stepProbs netOut temp thres) 0 sample hs
          rw [h1, stepProbs_length, hnet out netOut hno]
        have hlen2 : (List.zipWith (fun row s => row ++ [Int.ofNat s]) out sample).length
            = out.length := zipWith_append_length out sample hslen
        have hgetD2 : ∀ i, i < out.length →
            (List.zipWith (fun row s => row ++ [Int.ofNat s]) out sample).getD i []
              = (out.getD i []) ++ [Int.ofNat (sample.getD i 0)] :=
          fun i hi => zipWith_append_getD out sample hslen i hi
        split at h
        · -- eos = none: keep looping
          obtain ⟨s, hsle, hrlen, hlens, hpre, hnone, _⟩ := ih (step + 1) _ res h
          refine ⟨s + 1, by omega, by rw [hrlen, hlen2], ?_, ?_, ?_, ?_⟩
          · intro i hi
            have := hlens i (by rw [hlen2]; exact hi)
            rw [hgetD2 i hi] at this
            simp only [List.length_append, List.length_cons, List.length_nil] at this
            omega
          · intro i p hi hp
            have hp2 : p < ((List.zipWith (fun row s => row ++ [Int.ofNat s]) out sample).getD i []).length := by
              rw [hgetD2 i hi]
              simp only [List.length_append, List.length_cons, List.length_nil]
              omega
            rcases hpre i p (by rw [hlen2]; exact hi) hp2 with h1 | h1
            · rw [hgetD2 i hi, getD_append_left _ _ p hp] at h1
              exact Or.inl h1
            · exact Or.inr h1
          · intro _
            rw [hnone rfl]
          · intro tok htok
            cases htok
        · -- eos = some tok
          rename_i tok
          split at h
          · -- every row contains the terminator: mask and stop
            rename_i hall
            cases h
            refine ⟨1, by omega, by rw [List.length_map, hlen2], ?_, ?_, ?_, ?_⟩
            · intro i hi
              rw [map_getD_nil _ _ i (by rw [hlen2]; exact hi), maskAfter_length, hgetD2 i hi]
              simp
            · intro i p hi hp
              rw [map_getD_nil _ _ i (by rw [hlen2]; exact hi)]
              have hp2 : p < ((List.zipWith (fun row s => row ++ [Int.ofNat s]) out sample).getD i []).length := by
                rw [hgetD2 i hi]
                simp only [List.length_append, List.length_cons, List.length_nil]
                omega
              rw [maskAfter_getD tok pad _ false p hp2]
              by_cases hcond : ((false : Bool) ||
                  (((List.zipWith (fun row s => row ++ [Int.ofNat s]) out sample).getD i []).take p).any
                    (fun x => decide (x = tok))) = true
              · rw [if_pos hcond]
                exact Or.inr rfl
              · rw [if_neg hcond, hgetD2 i hi, getD_append_left _ _ p hp]
                exact Or.inl rfl
            · intro he
              cases he
            · intro tok' htok'
              cases htok'
              refine Or.inr ⟨?_, ?_⟩
              · rw [List.all_map]
                rw [List.all_eq_true] at hall ⊢
                intro row hrow
                exact maskAfter_any tok pad row (hall row hrow)
              · intro row hrow
                rcases List.mem_map.mp hrow with ⟨orig, _, horig⟩
                rw [← horig]
                exact maskAfter_afterEosPadded tok pad orig false
          · -- not every row contains the terminator yet: keep looping
            rename_i hall
            obtain ⟨s, hsle, hrlen, hlens, hpre, _, heoscl⟩ := ih (step + 1) _ res h
            refine ⟨s + 1, by omega, by rw [hrlen, hlen2], ?_, ?_, ?_, ?_⟩
            · intro i hi
              have := hlens i (by rw [hlen2]; exact hi)
              rw [hgetD2 i hi] at this
              simp only [List.length_append, List.length_cons, List.length_nil] at this
              omega
            · intro i p hi hp
              have hp2 : p < ((List.zipWith (fun row s => row ++ [Int.ofNat s]) out sample).getD i []).length := by
                rw [hgetD2 i hi]
                simp only [List.length_append, List.length_cons, List.length_nil]
                omega
              rcases hpre i p (by rw [hlen2]; exact hi) hp2 with h1 | h1
              · rw [hgetD2 i hi, getD_append_left _ _ p hp] at h1
                exact Or.inl h1
              · exact Or.inr h1
            · intro he
              cases he
            · intro tok' htok'
              cases htok'
              rcases heoscl tok rfl with h1 | h1
              · exact Or.inl (by omega)
              · exact Or.inr h1

theorem generate_eq (w : AutoregressiveWrapper) (training : Bool) (start : List (List ℤ))
    (n : ℕ) (eos : Option ℤ) (temp thres : ℚ) (choice : ℕ → ℕ → ℕ) :
    AutoregressiveWrapper.generate w training start n eos temp thres choice =
      match AutoregressiveWrapper.generateLoop w.net w.pad_value eos temp thres choice n 0 start with
      | Except.ok out =>
          (Except.ok (out.map (fun row => row.drop (start.headD []).length)), training)
      | Except.error e => (Except.error e, false) := by
  unfold AutoregressiveWrapper.generate eval_decorator
  cases hres : AutoregressiveWrapper.generateLoop w.net w.pad_value eos temp thres choice n 0 start <;>
    simp [hres, Except.map]

/-- C3: for a non-empty rectangular `start_tokens` of width `t` and any step
count `n`, a successful `generate` call returns one suffix row per batch row
(the prefix is stripped); all suffix rows share one length `s ≤ n`; without a
terminator `s = n`; with a terminator, either the loop ran all `n` steps or
every returned row is pad-filled strictly after any terminator occurrence. -/
theorem C3_generate_suffix_shape
    (w : AutoregressiveWrapper) (training : Bool) (start : List (List ℤ)) (n : ℕ)
    (eos : Option ℤ) (temp thres : ℚ) (choice : ℕ → ℕ → ℕ) (suffix : List (List ℤ))
    (_hne : start ≠ [])
    (huni : ∀ r ∈ start, r.length = (start.headD []).length)
    (hnet : ∀ inp o, w.net inp = Except.ok o → o.length = inp.length)
    (hok : (AutoregressiveWrapper.generate w training start n eos temp thres choice).1
      = Except.ok suffix) :
    suffix.length = start.length ∧
    ∃ s, s ≤ n ∧ (∀ r ∈ suffix, r.length = s) ∧
      (eos = none → s = n) ∧
      (∀ tok, eos = some tok →
        s = n ∨ ∀ r ∈ suffix, afterEosPadded tok w.pad_value r) := by
  rw [generate_eq] at hok
  cases hres : AutoregressiveWrapper.generateLoop w.net w.pad_value eos temp thres choice
      n 0 start with
  | error e => rw [hres] at hok; simp at hok
  | ok res =>
    rw [hres] at hok
    simp only at hok
    have hok' : suffix = res.map (fun row => row.drop (start.headD []).length) := by
      cases hok
      rfl
    subst hok'
    obtain ⟨s, hsle, hrlen, hlens, _, hnone, heos⟩ :=
      generateLoop_ok_spec w.net w.pad_value eos temp thres choice hnet n 0 start res hres
    have hreslen : ∀ r ∈ res, r.length = (start.headD []).length + s := by
      intro r hr
      rcases List.mem_iff_getElem.mp hr with ⟨i, hi, hieq⟩
      have hi' : i < start.length := by rw [← hrlen]; exact hi
      have h1 := hlens i hi'
      have hmem : start.getD i [] ∈ start := by
        rw [List.getD_eq_getElem _ _ hi']
        exact List.getElem_mem _
      rw [huni _ hmem] at h1
      rw [← hieq, ← List.getD_eq_getElem res [] hi]
      exact h1
    refine ⟨by rw [List.length_map, hrlen], s, hsle, ?_, hnone, ?_⟩
    · intro r hr
      rcases List.mem_map.mp hr with ⟨orig, horig, hreq⟩
      rw [← hreq, List.length_drop, hreslen orig horig]
      omega
    · intro tok htok
      rcases heos tok htok with h1 | h1
      · exact Or.inl h1
      · refine Or.inr ?_
        intro r hr
        rcases List.mem_map.mp hr with ⟨orig, horig, hreq⟩
        rw [← hreq]
        exact afterEosPadded_drop tok w.pad_value orig _ (h1.2 orig horig)

theorem drop_eq_singleton (L : List ℤ) (t : ℕ) (v : ℤ) (hlen : L.length = t + 1)
    (hv : L.getD t 0 = v) : L.drop t = [v] := by
  have h1 : (L.drop t).length = 1 := by simp [List.length_drop, hlen]
  have h0 : (L.drop t).getD 0 0 = L.getD (t + 0) 0 := by
    apply getD_drop_add
    rw [List.length_drop]
    omega
  cases hd : L.drop t with
  | nil => rw [hd] at h1; simp at h1
  | cons x xs =>
    rw [hd] at h1
    simp only [List.length_cons] at h1
    have hxs : xs = [] := List.eq_nil_of_length_eq_zero (by omega)
    subst hxs
    rw [hd] at h0
    simp only [List.getD_cons_zero] at h0
    rw [h0]
    rw [Nat.add_zero, hv]

/-- C9: the terminator check scans the whole sequence, the caller's prefix
included: when the terminator already occurs in every row of `start_tokens`,
a successful `generate` with that terminator and at least one step stops
after exactly one step and the single returned suffix position of every row
is the pad value, whatever token was sampled. -/
theorem C9_terminator_in_prefix_stops_first_step
    (w : AutoregressiveWrapper) (training : Bool) (start : List (List ℤ)) (n : ℕ)
    (tok : ℤ) (temp thres : ℚ) (choice : ℕ → ℕ → ℕ) (suffix : List (List ℤ))
    (_hne : start ≠ [])
    (huni : ∀ r ∈ start, r.length = (start.headD []).length)
    (hstart : ∀ r ∈ start, r.any (fun x => decide (x = tok)) = true)
    (hnet : ∀ inp o, w.net inp = Except.ok o → o.length = inp.length)
    (hn : 1 ≤ n)
    (hok : (AutoregressiveWrapper.generate w training start n (some tok) temp thres choice).1
      = Except.ok suffix) :
    suffix = start.map (fun _ => [w.pad_value]) := by
  obtain ⟨m, rfl⟩ : ∃ m, n = m + 1 := ⟨n - 1, by omega⟩
  rw [generate_eq] at hok
  cases hres : AutoregressiveWrapper.generateLoop w.net w.pad_value (some tok) temp thres choice
      (m + 1) 0 start with
  | error e => rw [hres] at hok; simp at hok
  | ok res =>
    rw [hres] at hok
    simp only at hok
    have hok' : suffix = res.map (fun row => row.drop (start.headD []).length) := by
      cases hok
      rfl
    subst hok'
    simp only [AutoregressiveWrapper.generateLoop] at hres
    split at hres
    · simp at hres
    · rename_i netOut hno
      split at hres
      · simp at hres
      · rename_i sample hs
        have hslen : sample.length = start.length := by
          have h1 := sampleRows_length (choice 0) (stepProbs netOut temp thres) 0 sample hs
          rw [h1, stepProbs_length, hnet start netOut hno]
        have hall : (List.zipWith (fun row s => row ++ [Int.ofNat s]) start sample).all
            (fun row => row.any (fun x => decide (x = tok))) = true := by
          rw [List.all_eq_true]
          intro row hrow
          rcases List.mem_iff_getElem.mp hrow with ⟨i, hi, hieq⟩
          rw [List.getElem_zipWith] at hieq
          rw [← hieq, List.any_append]
          have hi2 : i < start.length := by
            simp [List.length_zipWith, hslen] at hi
            omega
          have hmem : start[i] ∈ start := List.getElem_mem _
          rw [hstart _ hmem]
          rfl
        rw [if_pos hall] at hres
        have hres' : res = (List.zipWith (fun row s => row ++ [Int.ofNat s]) start sample).map
            (fun row => maskAfter tok w.pad_value row false) := by
          cases hres
          rfl
        subst hres'
        apply List.ext_getElem
        · simp [List.length_zipWith, hslen]
        · intro i h1 h2
          have hi : i < start.length := by
            simp [List.length_zipWith, hslen] at h1
            omega
          have hiz : i < (List.zipWith (fun row s => row ++ [Int.ofNat s]) start sample).length := by
            simp [List.length_zipWith, hslen]
            omega
          rw [List.getElem_map, List.getElem_map, List.getElem_map, List.getElem_zipWith]
          have his : i < sample.length := by omega
          have hmem : start[i] ∈ start := List.getElem_mem _
          have hrowlen : (start[i]).length = (start.headD []).length := huni _ hmem
          apply drop_eq_singleton
          · rw [maskAfter_length, List.length_append, hrowlen]
            rfl
          · rw [maskAfter_getD _ _ _ _ _ (by rw [List.length_append, hrowlen]; simp)]
            have htake : ((start[i] ++ [Int.ofNat (sample[i])]).take
                (start.headD []).length).any (fun x => decide (x = tok)) = true := by
              rw [← hrowlen, List.take_left]
              exact hstart _ hmem
            rw [if_pos (by rw [htake]; simp)]

unseal Rat.mul Rat.add Rat.sub Rat.inv in
/-- C4: with a terminator supplied, the loop never stops early (some row grew
by strictly fewer tokens than the step bound) unless every row of the result
contains the terminator, and on such a stop every row is pad-filled strictly
after any terminator occurrence; concretely, in the spec's batch-of-2
scenario (terminator 9 emitted at step 2 by one row and step 4 by the other,
6 steps allowed) generation runs through step 4 — not 2, not 6 — and the
early finisher's positions after its own terminator are pad-filled. -/
theorem C4_terminator_batch_semantics :
    (∀ (net : Net) (pad tok : ℤ) (temp thres : ℚ) (choice : ℕ → ℕ → ℕ)
        (fuel step : ℕ) (out res : List (List ℤ)),
        (∀ inp o, net inp = Except.ok o → o.length = inp.length) →
        AutoregressiveWrapper.generateLoop net pad (some tok) temp thres choice fuel step out
          = Except.ok res →
        (∃ i, i < out.length ∧ (res.getD i []).length < (out.getD i []).length + fuel) →
        res.all (fun row => row.any (fun x => decide (x = tok))) = true ∧
        ∀ row ∈ res, afterEosPadded tok pad row) ∧
    AutoregressiveWrapper.generate ⟨scenNet, 2048, 0⟩ true [[1], [2]] 6 (some 9) 1 (9/10)
      (fun _ _ => 0) = (Except.ok [[5, 9, 0, 0], [6, 7, 8, 9]], true) := by
  constructor
  · intro net pad tok temp thres choice fuel step out res hnet hok hex
    obtain ⟨s, _, _, hlens, _, _, heos⟩ :=
      generateLoop_ok_spec net pad (some tok) temp thres choice hnet fuel step out res hok
    rcases heos tok rfl with h1 | h1
    · exfalso
      obtain ⟨i, hi, hlt⟩ := hex
      rw [hlens i hi, h1] at hlt
      omega
    · exact h1
  · decide

/-- C8: `generate` never reads the recorded `max_seq_len`: two wrappers that
agree on the scorer and the pad value but differ arbitrarily in
`max_seq_len` produce identical results (same output, same final mode) on
every input and every random draw, whatever step count is requested. -/
theorem C8_generate_ignores_max_seq_len :
    ∀ (net : Net) (m₁ m₂ : ℕ) (pad : ℤ) (training : Bool) (start : List (List ℤ))
      (n : ℕ) (eos : Option ℤ) (temp thres : ℚ) (choice : ℕ → ℕ → ℕ),
      AutoregressiveWrapper.generate ⟨net, m₁, pad⟩ training start n eos temp thres choice =
      AutoregressiveWrapper.generate ⟨net, m₂, pad⟩ training start n eos temp thres choice :=
  fun _ _ _ _ _ _ _ _ _ _ _ => rfl

/-- C10: with a step count of zero, `generate` returns one empty suffix row
per batch row, restores the training mode, and never queries the scorer (any
wrapper gives the identical call result). -/
theorem C10_zero_steps_empty_suffix
    (w : AutoregressiveWrapper) (training : Bool) (start : List (List ℤ))
    (eos : Option ℤ) (temp thres : ℚ) (choice : ℕ → ℕ → ℕ)
    (huni : ∀ r ∈ start, r.length = (start.headD []).length) :
    AutoregressiveWrapper.generate w training start 0 eos temp thres choice
      = (Except.ok (start.map (fun _ => ([] : List ℤ))), training) ∧
    ∀ w2 : AutoregressiveWrapper,
      AutoregressiveWrapper.generate w2 training start 0 eos temp thres choice
        = AutoregressiveWrapper.generate w training start 0 eos temp thres choice := by
  constructor
  · rw [generate_eq]
    simp only [AutoregressiveWrapper.generateLoop]
    congr 2
    apply List.map_congr_left
    intro r hr
    rw [← huni r hr]
    exact List.drop_length r
  · intro w2
    rfl

/-- C1 (code bug evidence): when the scorer raises during `generate`, the
wrapper's prior training mode is NOT restored — `eval_decorator` has no
try/finally, so a call entered in training mode ends with the module left in
inference mode (`false`) instead of the prior `true`. -/
theorem C1_mode_not_restored_on_scorer_failure :
    AutoregressiveWrapper.generate ⟨failNet, 2048, 0⟩ true [[0]] 3 none 1 (1/2)
      (fun _ _ => 0) = (Except.error GenError.scorerFailure, false) := by
  rfl

unseal Rat.mul Rat.add Rat.sub Rat.inv in
/-- C2 (code bug evidence): with vocabulary size 5 and `filter_thres = 9/10`
the truncation cutoff is `k = int(0.5) = 0`: `top_k` leaves no finite entry,
softmax of the all-`-inf` row is NaN everywhere, and the `generate` call
surfaces the sampler's generic invalid-distribution failure — it never
raises a DegenerateDistribution error. -/
theorem C2_k_zero_silent_nan :
    top_k [1, 2, 3, 4, 5] (9/10) = [⊥, ⊥, ⊥, ⊥, ⊥] ∧
    softmax (scaleTemp (top_k [1, 2, 3, 4, 5] (9/10)) 1)
      = [Prob.nan, Prob.nan, Prob.nan, Prob.nan, Prob.nan] ∧
    AutoregressiveWrapper.generate ⟨vocab5Net, 2048, 0⟩ true [[0]] 1 none 1 (9/10)
      (fun _ _ => 0) = (Except.error GenError.invalidDistribution, false) ∧
    (AutoregressiveWrapper.generate ⟨vocab5Net, 2048, 0⟩ true [[0]] 1 none 1 (9/10)
      (fun _ _ => 0)).1 ≠ Except.error GenError.degenerateDistribution := by
  refine ⟨by decide, by decide, by decide, by decide⟩

/-- C6 (code bug evidence): `forward` applies the shifted split without any
length check, so on a length-1 sequence (empty input and target) with a
scorer that accepts the empty batch it returns a silent NaN loss
(`Except.ok none`, a mean over zero cells) instead of failing clearly. -/
theorem C6_short_sequence_silent_empty_loss :
    AutoregressiveWrapper.forward ⟨emptyNet, 2048, 0⟩ [[5]] = Except.ok none ∧
    ∀ e : GenError, AutoregressiveWrapper.forward ⟨emptyNet, 2048, 0⟩ [[5]]
      ≠ Except.error e := by
  constructor
  · rfl
  · intro e h
    rw [show AutoregressiveWrapper.forward ⟨emptyNet, 2048, 0⟩ [[5]] = Except.ok none from rfl] at h
    exact Except.noConfusion h

unseal Rat.mul Rat.add Rat.sub Rat.inv in
theorem C3_generate_suffix_shape_witness :
    ([[5, 5]] : List (List ℤ)).length = ([[0]] : List (List ℤ)).length ∧
    ∃ s, s ≤ 2 ∧ (∀ r ∈ ([[5, 5]] : List (List ℤ)), r.length = s) ∧
      ((none : Option ℤ) = none → s = 2) ∧
      (∀ tok : ℤ, (none : Option ℤ) = some tok →
        s = 2 ∨ ∀ r ∈ ([[5, 5]] : List (List ℤ)),
          afterEosPadded tok (⟨constNet, 2048, 0⟩ : AutoregressiveWrapper).pad_value r) :=
  C3_generate_suffix_shape ⟨constNet, 2048, 0⟩ true [[0]] 2 none 1 (9/10) (fun _ _ => 0)
    [[5, 5]] (by decide) (by decide)
    (fun inp o h => by simp only [constNet, Except.ok.injEq] at h; rw [← h]; simp)
    (by decide)

unseal Rat.mul Rat.add Rat.sub Rat.inv in
theorem C9_terminator_in_prefix_stops_first_step_witness :
    ([[0]] : List (List ℤ)) = ([[9]] : List (List ℤ)).map
      (fun _ => [(⟨constNet, 2048, 0⟩ : AutoregressiveWrapper).pad_value]) :=
  C9_terminator_in_prefix_stops_first_step ⟨constNet, 2048, 0⟩ true [[9]] 1 9 1 (9/10)
    (fun _ _ => 0) [[0]] (by decide) (by decide) (by decide)
    (fun inp o h => by simp only [constNet, Except.ok.injEq] at h; rw [← h]; simp)
    (by decide) (by decide)

theorem C10_zero_steps_empty_suffix_witness :
    AutoregressiveWrapper.generate ⟨constNet, 2048, 0⟩ true [[1, 2]] 0 none 1 (9/10)
      (fun _ _ => 0)
      = (Except.ok (([[1, 2]] : List (List ℤ)).map (fun _ => ([] : List ℤ))), true) ∧
    ∀ w2 : AutoregressiveWrapper,
      AutoregressiveWrapper.generate w2 true [[1, 2]] 0 none 1 (9/10) (fun _ _ => 0)
        = AutoregressiveWrapper.generate ⟨constNet, 2048, 0⟩ true [[1, 2]] 0 none 1 (9/10)
          (fun _ _ => 0) :=
  C10_zero_steps_empty_suffix ⟨constNet, 2048, 0⟩ true [[1, 2]] none 1 (9/10) (fun _ _ => 0)
    (by decide)

theorem betterIdx_irrefl (l : List ℚ) (i : ℕ) : ¬ betterIdx l i i := by
  unfold betterIdx
  simp

theorem betterIdx_trans (l : List ℚ) {a b c : ℕ} (h1 : betterIdx l a b)
    (h2 : betterIdx l b c) : betterIdx l a c := by
  unfold betterIdx at h1 h2 ⊢
  rcases h1 with h1 | ⟨h1e, h1l⟩ <;> rcases h2 with h2 | ⟨h2e, h2l⟩
  · exact Or.inl (lt_trans h2 h1)
  · exact Or.inl (h2e ▸ h1)
  · exact Or.inl (lt_of_lt_of_le h2 (le_of_eq h1e.symm))
  · exact Or.inr ⟨h1e.trans h2e, lt_trans h1l h2l⟩

theorem betterIdx_total (l : List ℚ) {i j : ℕ} (hij : i ≠ j) :
    betterIdx l i j ∨ betterIdx l j i := by
  unfold betterIdx
  rcases lt_trichotomy (l.getD i 0) (l.getD j 0) with h | h | h
  · exact Or.inr (Or.inl h)
  · rcases Nat.lt_or_ge i j with hlt | hge
    · exact Or.inl (Or.inr ⟨h, hlt⟩)
    · exact Or.inr (Or.inr ⟨h.symm, lt_of_le_of_ne hge (Ne.symm hij)⟩)
  · exact Or.inl (Or.inl h)

theorem rank_lt_length (l : List ℚ) (i : ℕ) (hi : i < l.length) : rank l i < l.length := by
  unfold rank
  have hsub : (Finset.range l.length).filter (fun j => betterIdx l j i) ⊆
      (Finset.range l.length).erase i := by
    intro j hj
    rw [Finset.mem_filter] at hj
    rw [Finset.mem_erase]
    refine ⟨?_, hj.1⟩
    intro hji
    exact betterIdx_irrefl l i (hji ▸ hj.2)
  calc ((Finset.range l.length).filter (fun j => betterIdx l j i)).card
      ≤ ((Finset.range l.length).erase i).card := Finset.card_le_card hsub
    _ < (Finset.range l.length).card :=
        Finset.card_erase_lt_of_mem (Finset.mem_range.mpr hi)
    _ = l.length := Finset.card_range _

theorem rank_strict_mono (l : List ℚ) {j i : ℕ} (hj : j < l.length)
    (h : betterIdx l j i) : rank l j < rank l i := by
  unfold rank
  apply Finset.card_lt_card
  rw [Finset.ssubset_iff_of_subset ?_]
  · exact ⟨j, Finset.mem_filter.mpr ⟨Finset.mem_range.mpr hj, h⟩,
      fun hc => betterIdx_irrefl l j (Finset.mem_filter.mp hc).2⟩
  · intro a ha
    rw [Finset.mem_filter] at ha ⊢
    exact ⟨ha.1, betterIdx_trans l ha.2 h⟩

theorem rank_inj (l : List ℚ) {i j : ℕ} (hi : i < l.length) (hj : j < l.length)
    (h : rank l i = rank l j) : i = j := by
  by_contra hne
  rcases betterIdx_total l hne with hb | hb
  · exact absurd h (Nat.ne_of_lt (rank_strict_mono l hi hb))
  · exact absurd h.symm (Nat.ne_of_lt (rank_strict_mono l hj hb))

theorem rank_surj (l : List ℚ) (m : ℕ) (hm : m < l.length) :
    ∃ i, i < l.length ∧ rank l i = m := by
  have hinj : Function.Injective
      (fun i : Fin l.length => (⟨rank l i, rank_lt_length l i i.2⟩ : Fin l.length)) := by
    intro a b hab
    have := congrArg Fin.val hab
    exact Fin.ext (rank_inj l a.2 b.2 this)
  have hsurj : Function.Surjective
      (fun i : Fin l.length => (⟨rank l i, rank_lt_length l i i.2⟩ : Fin l.length)) :=
    Finite.surjective_of_injective hinj
  obtain ⟨i, hi⟩ := hsurj ⟨m, hm⟩
  exact ⟨i, i.2, congrArg Fin.val hi⟩

theorem rank_count (l : List ℚ) (k : ℕ) (hk : k ≤ l.length) :
    ((Finset.range l.length).filter (fun i => rank l i < k)).card = k := by
  apply le_antisymm
  · have := Finset.card_le_card_of_injOn (fun i => rank l i)
      (s := (Finset.range l.length).filter (fun i => rank l i < k))
      (t := Finset.range k)
      (fun i hi => Finset.mem_range.mpr (Finset.mem_filter.mp hi).2)
      (fun a ha b hb hab => by
        rw [Finset.coe_filter, Set.mem_setOf_eq, Finset.mem_range] at ha hb
        exact rank_inj l ha.1 hb.1 hab)
    rw [Finset.card_range] at this
    exact this
  · have hsurj : Set.SurjOn (fun i => rank l i)
        ↑((Finset.range l.length).filter (fun i => rank l i < k)) ↑(Finset.range k) := by
      intro m hm
      rw [Finset.coe_range, Set.mem_Iio] at hm
      obtain ⟨i, hi, hri⟩ := rank_surj l m (lt_of_lt_of_le hm hk)
      refine ⟨i, ?_, hri⟩
      rw [Finset.coe_filter, Set.mem_setOf_eq, Finset.mem_range]
      exact ⟨hi, by rw [hri]; exact hm⟩
    have := Finset.card_le_card_of_surjOn (fun i => rank l i) hsurj
    rw [Finset.card_range] at this
    exact this

theorem top_k_length (l : List ℚ) (thres : ℚ) : (top_k l thres).length = l.length := by
  simp [top_k]

theorem top_k_getD (l : List ℚ) (thres : ℚ) (i : ℕ) (hi : i < l.length) :
    (top_k l thres).getD i ⊥ =
      if rank l i < (int_trunc ((1 - thres) * (l.length : ℚ))).toNat
      then ((l.getD i 0 : ℚ) : WithBot ℚ) else ⊥ := by
  unfold top_k
  rw [List.getD_eq_getElem _ _ (by simpa using hi)]
  simp

theorem int_trunc_eq_floor (q : ℚ) (h : 0 ≤ q) : int_trunc q = ⌊q⌋ := by
  unfold int_trunc
  rw [if_pos h]

theorem k_le_length (n : ℕ) (thres : ℚ) (h0 : 0 < thres) (h1 : thres < 1) :
    (int_trunc ((1 - thres) * (n : ℚ))).toNat ≤ n := by
  have hpos : (0:ℚ) ≤ (1 - thres) * n := by
    apply mul_nonneg
    · linarith
    · exact Nat.cast_nonneg n
  rw [int_trunc_eq_floor _ hpos]
  rw [Int.toNat_le]
  have hle : (1 - thres) * (n:ℚ) ≤ (n:ℚ) := by
    nlinarith [Nat.cast_nonneg (α := ℚ) n, h0]
  calc ⌊(1 - thres) * (n:ℚ)⌋ ≤ ⌊(n:ℚ)⌋ := Int.floor_le_floor hle
    _ = (n:ℤ) := Int.floor_natCast n

/-- C5: for every score row and threshold in (0,1) whose cutoff
`k = ⌊(1 - thres) * n⌋` (the code's fixed formula, not a nucleus rule) is
positive, `top_k` preserves the row length, leaves exactly `k` entries
finite, every surviving entry scores at least every truncated entry, and
every truncated entry receives probability zero under the following
softmax normalization. -/
theorem C5_topk_truncation (logits : List ℚ) (thres : ℚ)
    (h0 : 0 < thres) (h1 : thres < 1)
    (hk : 0 < Int.toNat ⌊(1 - thres) * (logits.length : ℚ)⌋) :
    (top_k logits thres).length = logits.length ∧
    ((Finset.range logits.length).filter
        (fun j => (top_k logits thres).getD j ⊥ ≠ ⊥)).card
      = Int.toNat ⌊(1 - thres) * (logits.length : ℚ)⌋ ∧
    (∀ i j, i < logits.length → j < logits.length →
      (top_k logits thres).getD i ⊥ ≠ ⊥ → (top_k logits thres).getD j ⊥ = ⊥ →
      logits.getD j 0 ≤ logits.getD i 0) ∧
    (∀ j, j < logits.length → (top_k logits thres).getD j ⊥ = ⊥ →
      (softmax (top_k logits thres)).getD j Prob.pos = Prob.zero) := by
  have hq : (0:ℚ) ≤ (1 - thres) * (logits.length : ℚ) := by
    apply mul_nonneg
    · linarith
    · exact Nat.cast_nonneg _
  have hfl : (int_trunc ((1 - thres) * (logits.length : ℚ))).toNat
      = Int.toNat ⌊(1 - thres) * (logits.length : ℚ)⌋ := by
    rw [int_trunc_eq_floor _ hq]
  have hkle : Int.toNat ⌊(1 - thres) * (logits.length : ℚ)⌋ ≤ logits.length :=
    hfl ▸ k_le_length logits.length thres h0 h1
  have hfin : ∀ j, j < logits.length →
      ((top_k logits thres).getD j ⊥ ≠ ⊥ ↔
        rank logits j < Int.toNat ⌊(1 - thres) * (logits.length : ℚ)⌋) := by
    intro j hj
    rw [top_k_getD logits thres j hj, hfl]
    constructor
    · intro hne
      by_contra hnk
      rw [if_neg hnk] at hne
      exact hne rfl
    · intro hr
      rw [if_pos hr]
      exact WithBot.coe_ne_bot
  refine ⟨top_k_length logits thres, ?_, ?_, ?_⟩
  · have heq : (Finset.range logits.length).filter
        (fun j => (top_k logits thres).getD j ⊥ ≠ ⊥)
        = (Finset.range logits.length).filter
          (fun j => rank logits j < Int.toNat ⌊(1 - thres) * (logits.length : ℚ)⌋) :=
      Finset.filter_congr (fun j hj => by
        rw [hfin j (Finset.mem_range.mp hj)])
    rw [heq]
    exact rank_count logits _ hkle
  · intro i j hi hj hif hjb
    have hri := (hfin i hi).mp hif
    have hrj : ¬ rank logits j < Int.toNat ⌊(1 - thres) * (logits.length : ℚ)⌋ := by
      intro hc
      exact ((hfin j hj).mpr hc) hjb
    by_contra hlt
    push_neg at hlt
    have := rank_strict_mono logits hj (Or.inl hlt)
    omega
  · intro j hj hb
    have hany : (top_k logits thres).any (fun x => decide (x ≠ ⊥)) = true := by
      obtain ⟨i, hi, hri⟩ := rank_surj logits 0 (lt_of_lt_of_le hk hkle)
      rw [List.any_eq_true]
      have hit : i < (top_k logits thres).length := by
        rw [top_k_length]
        exact hi
      refine ⟨(top_k logits thres).getD i ⊥, ?_, ?_⟩
      · rw [List.getD_eq_getElem _ _ hit]
        exact List.getElem_mem _
      · exact decide_eq_true ((hfin i hi).mpr (by rw [hri]; exact hk))
    unfold softmax
    rw [if_pos hany]
    have hjt : j < (top_k logits thres).length := by
      rw [top_k_length]
      exact hj
    rw [List.getD_eq_getElem _ _ (by simpa using hjt), List.getElem_map]
    rw [List.getD_eq_getElem _ _ hjt] at hb
    rw [if_pos hb]

theorem range_map_getD (l : List ℚ) :
    (List.range l.length).map (fun c => l.getD c 0) = l := by
  apply List.ext_getElem
  · simp
  · intro i h1 h2
    simp only [List.getElem_map, List.getElem_range]
    rw [List.getD_eq_getElem _ _ h2]

theorem transpose2d_column (sc : List (List ℚ)) (C : ℕ) (p : ℕ)
    (hp : p < sc.length) (hC : ∀ pr ∈ sc, pr.length = C) :
    (transpose2d sc).map (fun cr => cr.getD p 0) = sc.getD p [] := by
  have hhead : (sc.headD []).length = C := by
    cases sc with
    | nil => simp at hp
    | cons s0 rest => exact hC s0 (List.mem_cons_self _ _)
  unfold transpose2d
  rw [hhead, List.map_map]
  have hcol : ∀ i : ℕ, ((sc.map (fun row => row.getD i 0)).getD p 0)
      = (sc.getD p []).getD i 0 := by
    intro i
    rw [List.getD_eq_getElem _ _ (by simpa using hp), List.getElem_map,
      List.getD_eq_getElem sc [] hp]
  have hlen : (sc.getD p []).length = C := by
    apply hC
    rw [List.getD_eq_getElem _ _ hp]
    exact List.getElem_mem _
  calc (List.range C).map ((fun cr => cr.getD p 0) ∘ (fun i => sc.map (fun row => row.getD i 0)))
      = (List.range C).map (fun i => (sc.getD p []).getD i 0) := by
        apply List.map_congr_left
        intro i _
        exact hcol i
    _ = sc.getD p [] := by
        rw [← hlen]
        exact range_map_getD _

theorem forward_ok (w : AutoregressiveWrapper) (x : List (List ℤ))
    (scores : List (List (List ℚ)))
    (hnet : w.net (x.map (fun row => row.dropLast)) = Except.ok scores) :
    AutoregressiveWrapper.forward w x
      = Except.ok (cross_entropy (scores.map transpose2d)
          (x.map (fun row => row.drop 1))) := by
  unfold AutoregressiveWrapper.forward
  dsimp only
  rw [hnet]

/-- C7: on a rectangular batch of width `L ≥ 2`, `forward` computes the
teacher-forced loss: it queries the scorer once, on the input portion (every
row minus its last token) — the result depends on the scorer only through
that one query — and returns the mean over all batch rows and the `L - 1`
shifted positions of the categorical cross-entropy cell
`log (Σ exp scores) - scores[target]`, the target of position `p` being the
next token `row[p + 1]`. -/
theorem C7_teacher_forced_loss
    (w : AutoregressiveWrapper) (x : List (List ℤ)) (scores : List (List (List ℚ)))
    (L C : ℕ) (hL : 2 ≤ L) (hx : x ≠ [])
    (hxlen : ∀ r ∈ x, r.length = L)
    (hnet : w.net (x.map (fun row => row.dropLast)) = Except.ok scores)
    (hsB : scores.length = x.length)
    (hsn : ∀ sc ∈ scores, sc.length = L - 1)
    (hsC : ∀ sc ∈ scores, ∀ pr ∈ sc, pr.length = C) :
    AutoregressiveWrapper.forward w x
      = Except.ok (some (
          ((scores.zip x).map (fun bt =>
            ((List.range (L - 1)).map (fun p =>
              Real.log (((bt.1.getD p []).map (fun q => Real.exp (q : ℝ))).sum)
                - (((bt.1.getD p []).getD ((bt.2.getD (p + 1) 0).toNat) 0 : ℚ) : ℝ))).sum)).sum
          / ((x.length * (L - 1) : ℕ) : ℝ))) ∧
    (∀ net2 : Net,
      net2 (x.map (fun row => row.dropLast)) = w.net (x.map (fun row => row.dropLast)) →
      AutoregressiveWrapper.forward ⟨net2, w.max_seq_len, w.pad_value⟩ x
        = AutoregressiveWrapper.forward w x) := by
  constructor
  · rw [forward_ok w x scores hnet]
    unfold cross_entropy
    dsimp only
    congr 1
    have hzlen : (scores.zip x).length = x.length := by
      rw [List.length_zip scores x, hsB]
      exact min_self _
    have hmapeq : ((scores.map transpose2d).zip (x.map (fun row => List.drop 1 row))).map
          (fun bt => (List.range bt.2.length).map (fun p =>
            crossEntropyCell (bt.1.map (fun classRow => classRow.getD p 0)) (bt.2.getD p 0)))
        = (scores.zip x).map (fun bt =>
            (List.range (L - 1)).map (fun p =>
              Real.log (((bt.1.getD p []).map (fun q => Real.exp (q : ℝ))).sum)
                - (((bt.1.getD p []).getD ((bt.2.getD (p + 1) 0).toNat) 0 : ℚ) : ℝ))) := by
      rw [List.zip_map, List.map_map]
      apply List.map_congr_left
      intro bt hbt
      obtain ⟨sc, row⟩ := bt
      obtain ⟨hsc, hrow⟩ := List.of_mem_zip hbt
      have hscL : sc.length = L - 1 := hsn _ hsc
      have hrowL : row.length = L := hxlen _ hrow
      simp only [Function.comp_apply, Prod.map_apply]
      have hdlen : (row.drop 1).length = L - 1 := by
        rw [List.length_drop, hrowL]
      rw [hdlen]
      apply List.map_congr_left
      intro p hp
      rw [List.mem_range] at hp
      have hpsc : p < sc.length := by omega
      rw [transpose2d_column sc C p hpsc (hsC _ hsc)]
      have hlabel : (row.drop 1).getD p 0 = row.getD (p + 1) 0 := by
        rw [getD_drop_add row 1 p (by rw [hdlen]; omega)]
        congr 1
        omega
      rw [hlabel]
      rfl
    rw [hmapeq]
    have hlen : (((scores.zip x).map (fun bt =>
          (List.range (L - 1)).map (fun p =>
            Real.log (((bt.1.getD p []).map (fun q => Real.exp (q : ℝ))).sum)
              - (((bt.1.getD p []).getD ((bt.2.getD (p + 1) 0).toNat) 0 : ℚ) : ℝ)))).flatten).length
        = x.length * (L - 1) := by
      rw [List.length_flatten, List.map_map]
      have hconst : List.map (List.length ∘ fun bt =>
            (List.range (L - 1)).map (fun p =>
              Real.log (((bt.1.getD p []).map (fun q => Real.exp (q : ℝ))).sum)
                - (((bt.1.getD p []).getD ((bt.2.getD (p + 1) 0).toNat) 0 : ℚ) : ℝ)))
            (scores.zip x)
          = List.replicate (scores.zip x).length (L - 1) := by
        rw [← List.map_const]
        apply List.map_congr_left
        intro bt _
        simp
      rw [hconst, List.sum_replicate, smul_eq_mul, hzlen]
    have hne0 : ¬ ((((scores.zip x).map (fun bt =>
          (List.range (L - 1)).map (fun p =>
            Real.log (((bt.1.getD p []).map (fun q => Real.exp (q : ℝ))).sum)
              - (((bt.1.getD p []).getD ((bt.2.getD (p + 1) 0).toNat) 0 : ℚ) : ℝ)))).flatten).length
        = 0) := by
      rw [hlen]
      have hxpos : 0 < x.length := List.length_pos.mpr hx
      have : 0 < L - 1 := by omega
      positivity
    rw [if_neg hne0]
    congr 1
    rw [hlen, List.sum_flatten, List.map_map]
    rfl
  · intro net2 hnet2
    unfold AutoregressiveWrapper.forward
    dsimp only
    rw [hnet2]

unseal Rat.mul Rat.add Rat.sub Rat.inv in
theorem C5_topk_truncation_witness :
    (top_k [1, 2, 3] (1/3)).length = ([1, 2, 3] : List ℚ).length ∧
    ((Finset.range ([1, 2, 3] : List ℚ).length).filter
        (fun j => (top_k [1, 2, 3] (1/3)).getD j ⊥ ≠ ⊥)).card
      = Int.toNat ⌊(1 - 1/3) * (([1, 2, 3] : List ℚ).length : ℚ)⌋ ∧
    (∀ i j, i < ([1, 2, 3] : List ℚ).length → j < ([1, 2, 3] : List ℚ).length →
      (top_k [1, 2, 3] (1/3)).getD i ⊥ ≠ ⊥ → (top_k [1, 2, 3] (1/3)).getD j ⊥ = ⊥ →
      ([1, 2, 3] : List ℚ).getD j 0 ≤ ([1, 2, 3] : List ℚ).getD i 0) ∧
    (∀ j, j < ([1, 2, 3] : List ℚ).length → (top_k [1, 2, 3] (1/3)).getD j ⊥ = ⊥ →
      (softmax (top_k [1, 2, 3] (1/3))).getD j Prob.pos = Prob.zero) :=
  C5_topk_truncation [1, 2, 3] (1/3) (by decide) (by decide) (by decide)

theorem C7_teacher_forced_loss_witness :
    AutoregressiveWrapper.forward ⟨constNet, 2048, 0⟩ [[0, 1]]
      = Except.ok (some (
          ((([[oneHot 10 5]] : List (List (List ℚ))).zip ([[0, 1]] : List (List ℤ))).map
            (fun bt =>
            ((List.range (2 - 1)).map (fun p =>
              Real.log (((bt.1.getD p []).map (fun q => Real.exp (q : ℝ))).sum)
                - (((bt.1.getD p []).getD ((bt.2.getD (p + 1) 0).toNat) 0 : ℚ) : ℝ))).sum)).sum
          / ((([[0, 1]] : List (List ℤ)).length * (2 - 1) : ℕ) : ℝ))) ∧
    (∀ net2 : Net,
      net2 (([[0, 1]] : List (List ℤ)).map (fun row => row.dropLast))
        = (⟨constNet, 2048, 0⟩ : AutoregressiveWrapper).net
            (([[0, 1]] : List (List ℤ)).map (fun row => row.dropLast)) →
      AutoregressiveWrapper.forward
          ⟨net2, (⟨constNet, 2048, 0⟩ : AutoregressiveWrapper).max_seq_len,
            (⟨constNet, 2048, 0⟩ : AutoregressiveWrapper).pad_value⟩ [[0, 1]]
        = AutoregressiveWrapper.forward ⟨constNet, 2048, 0⟩ [[0, 1]]) :=
  C7_teacher_forced_loss ⟨constNet, 2048, 0⟩ [[0, 1]] [[oneHot 10 5]] 2 10
    (by decide) (by decide) (by decide) rfl rfl (by decide) (by decide)
